import Mathlib

/-
  Verification development for the go-ctxize rewriter core.

  The definitions below are a shallow embedding of the Go sources
  (ctxize.go, latest revision): pure Go functions become Lean functions,
  the mutable App state (modified-file set, per-file imports) becomes
  explicit state passing, and fallible Go functions return Except.
  Go strings are modelled as character lists; external collaborators
  (go/parser, go/types method-set computation) are modelled at the
  interface granularity the rewriter consumes.
-/

namespace Ctxize

/-- Characters of a Go string; the embedding works over character lists. -/
abbrev Str := List Char

/-- Character class of the identifier fragments of the rxVarSpec regexp:
a letter or an underscore.  The Unicode letter table of the regexp engine
is modelled on its ASCII fragment; the characters relevant to the claims
(ASCII letters, digits, punctuation) are classified exactly. -/
def isIdentChar (c : Char) : Bool := c.isAlpha || c == '_'

/-- Whitespace class of the Go regexp engine (the complement of its
non-space class used in the rxVarSpec pattern). -/
def isGoSpace (c : Char) : Bool :=
  c == '\t' || c == '\n' || c == '\x0c' || c == '\r' || c == ' '

/-- Whitespace recognised by strings.TrimSpace (ASCII fragment). -/
def isUniSpace (c : Char) : Bool := isGoSpace c || c == '\x0b'

/-- Model of strings.TrimSpace: drop leading and trailing whitespace. -/
def trimSpaceGo (s : Str) : Str :=
  ((s.dropWhile isUniSpace).reverse.dropWhile isUniSpace).reverse

/-- Tail of the rxVarSpec pattern after the qualifying dot: the regexp
fragment matching a type-name group of letters and underscores, optional
spaces, a literal equals sign, optional spaces, and the nonempty
initializer group of non-newline characters extending to the end of the
input.  Returns the captured type name and initializer. -/
def matchTail (t : Str) : Option (Str × Str) :=
  if t.takeWhile isIdentChar = [] then none
  else
    match (t.dropWhile isIdentChar).dropWhile (fun c => c == ' ') with
    | '=' :: r2 =>
      if r2.dropWhile (fun c => c == ' ') = [] then
        if r2 = [] then none else some (t.takeWhile isIdentChar, [' '])
      else if (r2.dropWhile (fun c => c == ' ')).all (fun c => !(c == '\n')) then
        some (t.takeWhile isIdentChar, r2.dropWhile (fun c => c == ' '))
      else none
    | _ => none

/-- Scan for the qualifying dot of the rxVarSpec pattern.  The package-path
group is non-greedy, so the first dot whose tail matches the rest of the
pattern wins; the group may not contain whitespace and must be nonempty
(the accumulator holds the group read so far, in reverse). -/
def scanQualified (acc : Str) : Str → Option (Str × Str × Str)
  | [] => none
  | c :: cs =>
    if c = '.' ∧ acc ≠ [] then
      match matchTail cs with
      | some (ty, ie) => some (acc.reverse, ty, ie)
      | none => scanQualified (c :: acc) cs
    else if isGoSpace c then none
    else scanQualified (c :: acc) cs

/-- Anchored match of the rxVarSpec pattern against an already-trimmed
input, returning the four captured groups (name, package path, type name,
initializer expression).  The leading identifier group and the space run
after it are matched greedily; since their character classes are disjoint
from what follows, no backtracking into them can succeed. -/
def rxVarSpecMatch (t : Str) : Option (Str × Str × Str × Str) :=
  if t.takeWhile isIdentChar = [] then none
  else if (t.dropWhile isIdentChar).takeWhile (fun c => c == ' ') = [] then none
  else
    match scanQualified [] ((t.dropWhile isIdentChar).dropWhile (fun c => c == ' ')) with
    | some (pkg, ty, ie) => some (t.takeWhile isIdentChar, pkg, ty, ie)
    | none => none

/-- Resolved package information (packages.Package fields the rewriter
reads: the package identifier and the import path). -/
structure PkgInfo where
  name : Str
  pkgPath : Str
deriving DecidableEq

instance : Inhabited PkgInfo := ⟨⟨[], []⟩⟩

/-- Underlying shape of a type as the rewriter inspects it: an interface
with its method set, or anything else. -/
inductive GoUnderlying where
  | iface (methods : List Str)
  | other
deriving DecidableEq

/-- Model of a types.Object type as consumed by the rewriter: its
underlying shape and its method set (go/types method-set oracle). -/
structure GoType where
  underlying : GoUnderlying
  methodSet : List Str
deriving DecidableEq

instance : Inhabited GoType := ⟨⟨GoUnderlying.other, []⟩⟩

/-- VarSpec: the variable to be prepended.  The first four fields come
from parsing; pkg and varTypeObj are resolved by Load (their defaults
model the Go zero values before resolution). -/
structure VarSpec where
  Name : Str
  PkgPath : Str
  TypeName : Str
  InitExpr : Str
  pkg : PkgInfo
  varTypeObj : GoType
deriving DecidableEq

/-- Error message returned by ParseVarSpec on a non-matching input. -/
def varSpecErrMsg : Str :=
  "varSpec should in form of \"<name> <path>.<type> = <expr>\"".data

/-- ParseVarSpec: trim the input and match it against rxVarSpec,
populating the four public VarSpec fields from the captured groups. -/
def ParseVarSpec (s : Str) : Except Str VarSpec :=
  match rxVarSpecMatch (trimSpaceGo s) with
  | none => Except.error varSpecErrMsg
  | some (n, p, ty, ie) =>
    Except.ok { Name := n, PkgPath := p, TypeName := ty, InitExpr := ie,
                pkg := default, varTypeObj := default }

/-- Whether an Except value is an ok result. -/
def isOkE {ε α : Type} : Except ε α → Bool
  | Except.ok _ => true
  | Except.error _ => false

instance {ε α : Type} [DecidableEq ε] [DecidableEq α] : DecidableEq (Except ε α) := fun
  | Except.ok a, Except.ok b =>
    if h : a = b then isTrue (by rw [h]) else isFalse (by intro hc; cases hc; exact h rfl)
  | Except.ok _, Except.error _ => isFalse (by intro hc; cases hc)
  | Except.error _, Except.ok _ => isFalse (by intro hc; cases hc)
  | Except.error a, Except.error b =>
    if h : a = b then isTrue (by rw [h]) else isFalse (by intro hc; cases hc; exact h rfl)

/-- Go expression syntax, restricted to the shapes the rewriter builds or
inspects: identifiers, selector expressions, call arguments and literals. -/
inductive GoExpr where
  | ident (name : Str)
  | selector (x : GoExpr) (sel : Str)
  | callE (fn : GoExpr) (args : List GoExpr)
  | lit (text : Str)

mutual
/-- Decidable equality of expressions (the deriving handler does not
support the nested argument list). -/
def goExprDecEq : (a b : GoExpr) → Decidable (a = b)
  | GoExpr.ident n, GoExpr.ident m =>
    match decEq n m with
    | isTrue h => isTrue (congrArg GoExpr.ident h)
    | isFalse h => isFalse (fun hc => h (GoExpr.ident.inj hc))
  | GoExpr.ident _, GoExpr.selector _ _ => isFalse (fun hc => GoExpr.noConfusion hc)
  | GoExpr.ident _, GoExpr.callE _ _ => isFalse (fun hc => GoExpr.noConfusion hc)
  | GoExpr.ident _, GoExpr.lit _ => isFalse (fun hc => GoExpr.noConfusion hc)
  | GoExpr.selector _ _, GoExpr.ident _ => isFalse (fun hc => GoExpr.noConfusion hc)
  | GoExpr.selector x s, GoExpr.selector y t =>
    match goExprDecEq x y, decEq s t with
    | isTrue h1, isTrue h2 => isTrue (by rw [h1, h2])
    | isFalse h1, _ => isFalse (fun hc => h1 (GoExpr.selector.inj hc).1)
    | _, isFalse h2 => isFalse (fun hc => h2 (GoExpr.selector.inj hc).2)
  | GoExpr.selector _ _, GoExpr.callE _ _ => isFalse (fun hc => GoExpr.noConfusion hc)
  | GoExpr.selector _ _, GoExpr.lit _ => isFalse (fun hc => GoExpr.noConfusion hc)
  | GoExpr.callE _ _, GoExpr.ident _ => isFalse (fun hc => GoExpr.noConfusion hc)
  | GoExpr.callE _ _, GoExpr.selector _ _ => isFalse (fun hc => GoExpr.noConfusion hc)
  | GoExpr.callE f xs, GoExpr.callE g ys =>
    match goExprDecEq f g, goExprListDecEq xs ys with
    | isTrue h1, isTrue h2 => isTrue (by rw [h1, h2])
    | isFalse h1, _ => isFalse (fun hc => h1 (GoExpr.callE.inj hc).1)
    | _, isFalse h2 => isFalse (fun hc => h2 (GoExpr.callE.inj hc).2)
  | GoExpr.callE _ _, GoExpr.lit _ => isFalse (fun hc => GoExpr.noConfusion hc)
  | GoExpr.lit _, GoExpr.ident _ => isFalse (fun hc => GoExpr.noConfusion hc)
  | GoExpr.lit _, GoExpr.selector _ _ => isFalse (fun hc => GoExpr.noConfusion hc)
  | GoExpr.lit _, GoExpr.callE _ _ => isFalse (fun hc => GoExpr.noConfusion hc)
  | GoExpr.lit t, GoExpr.lit u =>
    match decEq t u with
    | isTrue h => isTrue (congrArg GoExpr.lit h)
    | isFalse h => isFalse (fun hc => h (GoExpr.lit.inj hc))

/-- Decidable equality of expression lists. -/
def goExprListDecEq : (as bs : List GoExpr) → Decidable (as = bs)
  | [], [] => isTrue rfl
  | [], _ :: _ => isFalse (fun hc => List.noConfusion hc)
  | _ :: _, [] => isFalse (fun hc => List.noConfusion hc)
  | a :: as, b :: bs =>
    match goExprDecEq a b, goExprListDecEq as bs with
    | isTrue h1, isTrue h2 => isTrue (by rw [h1, h2])
    | isFalse h1, _ => isFalse (fun hc => h1 (List.cons.inj hc).1)
    | _, isFalse h2 => isFalse (fun hc => h2 (List.cons.inj hc).2)
end

instance : DecidableEq GoExpr := goExprDecEq

mutual
/-- Model of format.Node on an expression: print it back as Go source. -/
def formatExpr : GoExpr → Str
  | GoExpr.ident n => n
  | GoExpr.selector x sel => formatExpr x ++ '.' :: sel
  | GoExpr.callE fn args => formatExpr fn ++ '(' :: formatArgs args ++ [')']
  | GoExpr.lit t => t

/-- Print a comma-separated argument list. -/
def formatArgs : List GoExpr → Str
  | [] => []
  | [e] => formatExpr e
  | e :: rest => formatExpr e ++ ',' :: ' ' :: formatArgs rest
end

/-- Assignment token: := (define), = (assign), or any other statement token. -/
inductive Tok where
  | define
  | assign
  | otherTok
deriving DecidableEq

/-- Go statement syntax, restricted to what the rewriter builds or inspects:
assignment statements and opaque other statements. -/
inductive Stmt where
  | assignStmt (lhs : List GoExpr) (tok : Tok) (rhs : List GoExpr)
  | exprStmt (e : GoExpr)
  | otherStmt (tag : Nat)
deriving DecidableEq

/-- A parameter-list field of a function declaration (ast.Field). -/
structure ParamField where
  names : List Str
  ty : GoExpr
deriving DecidableEq

/-- Entry of a lexical scope (types.Scope element): a named object with its
type, whether it is a *types.Var, and, when its declaration position lies
inside the enclosing function body, the index of the defining statement
(none models token.NoPos / a position outside the body). -/
structure ScopeEntry where
  name : Str
  ty : GoType
  isVar : Bool
  declIdx : Option Nat
deriving DecidableEq

/-- A lexical function scope: its entries in insertion order. -/
abbrev Scope := List ScopeEntry

/-- types.Scope.Lookup: the entry bound to a name, if any. -/
def scopeLookupEntry (s : Scope) (n : Str) : Option ScopeEntry :=
  s.find? (fun e => decide (e.name = n))

/-- types.Scope.Insert: add an entry unless its name is already bound. -/
def scopeInsert (s : Scope) (e : ScopeEntry) : Scope :=
  if (scopeLookupEntry s e.name).isSome then s else s ++ [e]

/-- Lexicographic order on character lists, used to model the sorted order
in which types.Scope.Names returns the bound names. -/
def strLeB : Str → Str → Bool
  | [], _ => true
  | _ :: _, [] => false
  | a :: as, b :: bs => if a = b then strLeB as bs else decide (a < b)

/-- Insert a string into a sorted list of strings. -/
def insertSortedStr (x : Str) : List Str → List Str
  | [] => [x]
  | y :: ys => if strLeB x y then x :: y :: ys else y :: insertSortedStr x ys

/-- Insertion sort of a list of strings. -/
def sortStrs : List Str → List Str
  | [] => []
  | x :: xs => insertSortedStr x (sortStrs xs)

/-- types.Scope.Names: the bound names in sorted order. -/
def scopeNames (s : Scope) : List Str := sortStrs (s.map (fun e => e.name))

/-- types.Implements for our method-set model: every interface method is
in the candidate type's method set. -/
def implementsIface (t : GoType) (methods : List Str) : Bool :=
  methods.all (fun m => decide (m ∈ t.methodSet))

/-- A function or method declaration: its parameter fields, body statement
list, and source position (used by markModified). -/
structure FuncDecl where
  params : List ParamField
  body : List Stmt
  pos : Nat
deriving DecidableEq

/-- A call expression: callee, argument list, and source position. -/
structure CallExpr where
  fn : GoExpr
  args : List GoExpr
  pos : Nat
deriving DecidableEq

/-- A loaded source file as the mutation tracker sees it: its identity, its
byte-offset span in the file set (hasPos is false when file.Pos() is
token.NoPos), and its import set. -/
structure GoFile where
  id : Nat
  hasPos : Bool
  base : Nat
  size : Nat
  imports : List Str
deriving DecidableEq

/-- App state threaded through the rewrite: the loaded files (all packages
flattened in iteration order) and the set of modified file identities. -/
structure AppState where
  files : List GoFile
  modified : List Nat
deriving DecidableEq

/-- Go map insertion for the modified set: adds the identity at most once. -/
def insertModified (m : List Nat) (i : Nat) : List Nat :=
  if i ∈ m then m else i :: m

/-- Whether a loaded file's byte-offset span contains a position (files
with no position are skipped). -/
def containsPos (f : GoFile) (pos : Nat) : Bool :=
  f.hasPos && decide (f.base ≤ pos) && decide (pos < f.base + f.size)

/-- markModified: find the loaded file whose span contains the position,
add it to the modified set and return it; when no file contains the
position, log a diagnostic and leave the state unchanged (returning none).
The model is a total function: the Go original likewise never returns an
error from this path. -/
def markModified (st : AppState) (pos : Nat) : AppState × Option GoFile :=
  match st.files.find? (fun f => containsPos f pos) with
  | some f => ({ st with modified := insertModified st.modified f.id }, some f)
  | none => (st, none)

/-- astutil.AddImport on a file of the state: record the import path on
the identified file unless already present. -/
def addImport (st : AppState) (fileId : Nat) (path : Str) : AppState :=
  { st with files := st.files.map (fun f =>
      if f.id = fileId then
        { f with imports := if path ∈ f.imports then f.imports else f.imports ++ [path] }
      else f) }

/-- FuncSpec: a fully-qualified function or method specification.  The pkg
field is the package resolved from PkgPath by Rewrite. -/
structure FuncSpec where
  PkgPath : Str
  TypeName : Str
  FuncName : Str
  pkg : PkgInfo
deriving DecidableEq

/-- FuncSpec.String: the canonical dotted string of the specification,
qualified by the resolved package's import path. -/
def FuncSpec.toStr (s : FuncSpec) : Str :=
  if s.TypeName = [] then s.pkg.pkgPath ++ '.' :: s.FuncName
  else s.pkg.pkgPath ++ '.' :: s.TypeName ++ '.' :: s.FuncName

/-- Receiver of a method candidate: pointer-ness, and the printed form of
the named receiver type (types.TypeString of the non-pointer type, which
is the import path, a dot, and the type name). -/
structure Recv where
  isPtr : Bool
  typeStr : Str
deriving DecidableEq

/-- types.TypeString of the receiver type: a star is prepended for a
pointer receiver. -/
def recvTypeString (r : Recv) : Str :=
  if r.isPtr then '*' :: r.typeStr else r.typeStr

/-- A candidate resolved function symbol (*types.Func): its name, the path
of its defining package, and its receiver when it is a method. -/
structure FuncObj where
  name : Str
  pkgPath : Str
  recv : Option Recv
deriving DecidableEq

/-- strings.TrimLeft(x, "*"): drop all leading stars. -/
def trimLeftStar (s : Str) : Str := s.dropWhile (fun c => c == '*')

/-- FuncSpec.matches: for a method candidate, compare the star-trimmed
receiver string joined with the function name against the spec's canonical
string; for a free function, compare the defining package path joined with
the function name. -/
def FuncSpec.matches (s : FuncSpec) (f : FuncObj) : Bool :=
  match f.recv with
  | some r => decide (trimLeftStar (recvTypeString r ++ '.' :: f.name) = s.toStr)
  | none => decide (f.pkgPath ++ '.' :: f.name = s.toStr)

/-- The name scanned from the enclosing scope when the variable's type is
an interface: the first bound name (in sorted order) whose object's type
implements the interface. -/
def findReusableName (vs : VarSpec) (scope : Scope) : Option Str :=
  match vs.varTypeObj.underlying with
  | GoUnderlying.iface ms =>
    (scopeNames scope).find? (fun n =>
      match scopeLookupEntry scope n with
      | some e => implementsIface e.ty ms
      | none => false)
  | GoUnderlying.other => none

/-- The identifier prepended at a call site and the usedExisting flag: the
reused in-scope name when the interface scan found one, otherwise the
VarSpec's configured name (the Go code falls back to the configured name
whenever the scanned name is empty, which for well-formed scopes only
happens when nothing was found). -/
def chooseVarName (vs : VarSpec) (scope : Scope) : Str × Bool :=
  match findReusableName vs scope with
  | some n => (if n = [] then vs.Name else n, true)
  | none => (vs.Name, false)

/-- Error message of rewriteCallExpr when no enclosing call expression is
found at the position. -/
def noCallMsg : Str := "BUG: could not find function call expression".data

/-- rewriteCallExpr: at a matched use, take the smallest enclosing call
expression (callAt, none when the path search failed), choose the argument
identifier from the scope, prepend it to the call's arguments, mark the
containing file modified, and, when no existing binding was reused, add
the variable's package import to that file. -/
def rewriteCallExpr (vs : VarSpec) (scope : Scope) (st : AppState)
    (callAt : Option CallExpr) : Except Str (AppState × CallExpr × Bool) :=
  match callAt with
  | none => Except.error noCallMsg
  | some callExpr =>
    let vn := chooseVarName vs scope
    let call1 : CallExpr := { callExpr with args := GoExpr.ident vn.1 :: callExpr.args }
    let r1 := markModified st callExpr.pos
    let st2 := match r1.2 with
      | some f => if vn.2 then r1.1 else addImport r1.1 f.id vs.pkg.pkgPath
      | none => r1.1
    Except.ok (st2, call1, vn.2)

/-- Error message of ensureVar when the initializer expression does not
parse. -/
def parseInitErrMsg (vs : VarSpec) : Str := "parsing ".data ++ vs.InitExpr

/-- ensureVar: unless the scope already binds the variable's name, insert
a new object into the scope, parse the initializer (pe models the external
go/parser), prepend the initializer statement to the function body, mark
the file at the position modified and add the variable's package import.
On a parse failure the error is surfaced and no statement is inserted. -/
def ensureVar (pe : Str → Option GoExpr) (vs : VarSpec) (scope : Scope)
    (decl : FuncDecl) (st : AppState) (pos : Nat) :
    Except Str (Scope × FuncDecl × AppState) :=
  if (scopeLookupEntry scope vs.Name).isSome then Except.ok (scope, decl, st)
  else
    let scope1 := scopeInsert scope ⟨vs.Name, vs.varTypeObj, true, none⟩
    match pe vs.InitExpr with
    | none => Except.error (parseInitErrMsg vs)
    | some initE =>
      let decl1 : FuncDecl :=
        { decl with body := Stmt.assignStmt [GoExpr.ident vs.Name] Tok.define [initE] :: decl.body }
      let r1 := markModified st pos
      let st2 := match r1.2 with
        | some f => addImport r1.1 f.id vs.pkg.pkgPath
        | none => r1.1
      Except.ok (scope1, decl1, st2)

/-- One iteration of rewriteCallers for a matched use: rewrite the call
expression, then synthesize the variable in the enclosing function only
when no existing binding was reused. -/
def rewriteCallSite (pe : Str → Option GoExpr) (vs : VarSpec) (scope : Scope)
    (decl : FuncDecl) (st : AppState) (callAt : Option CallExpr) (pos : Nat) :
    Except Str (Scope × FuncDecl × AppState × CallExpr) :=
  match rewriteCallExpr vs scope st callAt with
  | Except.error e => Except.error e
  | Except.ok (st1, call1, usedExisting) =>
    if usedExisting then Except.ok (scope, decl, st1, call1)
    else
      match ensureVar pe vs scope decl st1 pos with
      | Except.error e => Except.error e
      | Except.ok (sc1, d1, st2) => Except.ok (sc1, d1, st2, call1)

/-- removeStubVarDecl: when the inserted variable is the canonical context
spec, and the function's top scope binds a same-named *types.Var whose
defining statement (located via the object's position) is a single-LHS
define assignment whose right-hand side prints exactly as the default
context constructor, delete that statement from the body; in every other
case the body is returned unchanged. -/
def removeStubVarDecl (vs : VarSpec) (scope : Scope) (body : List Stmt) : List Stmt :=
  if vs.PkgPath ≠ "context".data ∨ vs.TypeName ≠ "Context".data then body
  else
    match scopeLookupEntry scope vs.Name with
    | none => body
    | some e =>
      if e.isVar = false then body
      else
        match e.declIdx with
        | none => body
        | some i =>
          match body[i]? with
          | some (Stmt.assignStmt lhs tok rhs) =>
            if tok = Tok.define ∧ lhs.length = 1 then
              match rhs.head? with
              | some r =>
                if formatExpr r = "context.TODO()".data then body.eraseIdx i else body
              | none => body
            else body
          | _ => body

/-- The not-found error message of rewriteFuncDecl. -/
def notFoundMsg (spec : FuncSpec) : Str :=
  "could not find declaration of func ".data ++ spec.FuncName ++
    " in package ".data ++ spec.PkgPath

/-- rewriteFuncDecl: scan the target package's defined symbols (paired with
their enclosing declaration and its scope) for the first one matching the
spec; fail with a not-found error when none matches.  On the match,
prepend the new first parameter (named by the VarSpec and typed with the
variable package's qualified type name), prune a redundant stub
initializer, mark the declaring file modified and add the import. -/
def rewriteFuncDecl (vs : VarSpec) (spec : FuncSpec)
    (defs : List (FuncObj × Scope × FuncDecl)) (st : AppState) :
    Except Str (FuncDecl × AppState) :=
  match defs.find? (fun d => spec.matches d.1) with
  | none => Except.error (notFoundMsg spec)
  | some (_, sc, d) =>
    let d1 : FuncDecl :=
      { d with params :=
          ⟨[vs.Name], GoExpr.selector (GoExpr.ident vs.pkg.name) vs.TypeName⟩ :: d.params }
    let d2 : FuncDecl := { d1 with body := removeStubVarDecl vs sc d1.body }
    let r1 := markModified st d.pos
    let st2 := match r1.2 with
      | some f => addImport r1.1 f.id vs.pkg.pkgPath
      | none => r1.1
    Except.ok (d2, st2)

/-! Helper lemmas about the list combinators used by the embedding. -/

theorem takeWhile_all_append {p : Char → Bool} (xs : Str) (y : Char) (ys : Str)
    (hall : ∀ c ∈ xs, p c = true) (hy : p y = false) :
    (xs ++ y :: ys).takeWhile p = xs := by
  induction xs with
  | nil => simp [List.takeWhile_cons, hy]
  | cons a as ih =>
    have ha : p a = true := hall a (List.mem_cons_self a as)
    simp only [List.cons_append, List.takeWhile_cons, ha, if_true]
    rw [ih (fun c hc => hall c (List.mem_cons_of_mem a hc))]

theorem dropWhile_all_append {p : Char → Bool} (xs : Str) (y : Char) (ys : Str)
    (hall : ∀ c ∈ xs, p c = true) (hy : p y = false) :
    (xs ++ y :: ys).dropWhile p = y :: ys := by
  induction xs with
  | nil => simp [List.dropWhile_cons, hy]
  | cons a as ih =>
    have ha : p a = true := hall a (List.mem_cons_self a as)
    simp only [List.cons_append, List.dropWhile_cons, ha, if_true]
    exact ih (fun c hc => hall c (List.mem_cons_of_mem a hc))

theorem mem_insertSortedStr (a x : Str) (l : List Str) :
    a ∈ insertSortedStr x l ↔ a = x ∨ a ∈ l := by
  induction l with
  | nil => simp [insertSortedStr]
  | cons y ys ih =>
    by_cases h : strLeB x y = true
    · simp [insertSortedStr, h]
    · simp only [insertSortedStr, h, if_false, Bool.false_eq_true, List.mem_cons, ih]
      tauto

theorem mem_sortStrs (a : Str) (l : List Str) : a ∈ sortStrs l ↔ a ∈ l := by
  induction l with
  | nil => simp [sortStrs]
  | cons x xs ih => simp [sortStrs, mem_insertSortedStr, ih]

theorem isGoSpace_false_not_space {c : Char} (h : isGoSpace c = false) :
    (c == ' ') = false := by
  unfold isGoSpace at h
  simp only [Bool.or_eq_false_iff] at h
  exact h.2

/-! Properties of the mutation tracker. -/

theorem subset_insertModified (m : List Nat) (i : Nat) : m ⊆ insertModified m i := by
  unfold insertModified
  by_cases h : i ∈ m
  · simp [h]
  · simp only [h, if_false]
    exact List.subset_cons_self i m

theorem nodup_insertModified (m : List Nat) (i : Nat) (h : m.Nodup) :
    (insertModified m i).Nodup := by
  unfold insertModified
  by_cases hm : i ∈ m
  · simpa [hm]
  · simp only [hm, if_false]
    exact List.nodup_cons.mpr ⟨hm, h⟩

theorem mem_insertModified_self (m : List Nat) (i : Nat) : i ∈ insertModified m i := by
  unfold insertModified
  by_cases hm : i ∈ m <;> simp [hm]

/-- Claim C9: markModified never aborts the rewrite.  It is a total
function; it leaves the loaded files untouched, the modified set only
grows and stays duplicate-free, when no loaded file contains the position
the state is returned unchanged with no file (the Go code merely logs a
diagnostic there), and when it returns a file that file is a loaded file
whose byte-offset span contains the position (the unique such file when
spans are disjoint) whose identity is added to the modified set at most
once. -/
theorem markModified_never_aborts (st : AppState) (pos : Nat) :
    (markModified st pos).1.files = st.files
    ∧ st.modified ⊆ (markModified st pos).1.modified
    ∧ (st.modified.Nodup → (markModified st pos).1.modified.Nodup)
    ∧ ((∀ f ∈ st.files, containsPos f pos = false) → markModified st pos = (st, none))
    ∧ (∀ f, (markModified st pos).2 = some f →
        f ∈ st.files ∧ containsPos f pos = true
        ∧ (markModified st pos).1.modified = insertModified st.modified f.id
        ∧ f.id ∈ (markModified st pos).1.modified)
    ∧ ((∃ f ∈ st.files, containsPos f pos = true) → (markModified st pos).2 ≠ none) := by
  unfold markModified
  cases hf : st.files.find? (fun f => containsPos f pos) with
  | none =>
    refine ⟨rfl, List.Subset.refl _, fun h => h, fun _ => rfl, ?_, ?_⟩
    · intro f h
      exact absurd h (by simp)
    · intro ⟨f, hmem, hcp⟩ _
      rw [List.find?_eq_none] at hf
      exact (hf f hmem) hcp
  | some f =>
    refine ⟨rfl, subset_insertModified _ _, nodup_insertModified _ _, ?_, ?_, ?_⟩
    · intro hall
      rw [List.find?_eq_none.mpr (fun x hx => by simp [hall x hx])] at hf
      exact absurd hf (by simp)
    · intro g hg
      simp only [Option.some.injEq] at hg
      subst hg
      have hcp0 := List.find?_some hf
      simp only [] at hcp0
      exact ⟨List.mem_of_find?_eq_some hf, hcp0, rfl, mem_insertModified_self _ _⟩
    · intro _ h
      exact absurd h (by simp)

/-- Witness for C9: a state with one loaded file spanning offsets 0-9 and
a position inside it. -/
theorem markModified_never_aborts_witness :
    (∃ f ∈ (AppState.mk [GoFile.mk 1 true 0 10 []] []).files, containsPos f 5 = true)
    ∧ (markModified (AppState.mk [GoFile.mk 1 true 0 10 []] []) 5).2 ≠ none := by
  have h := markModified_never_aborts (AppState.mk [GoFile.mk 1 true 0 10 []] []) 5
  exact ⟨⟨GoFile.mk 1 true 0 10 [], by decide, by decide⟩,
    h.2.2.2.2.2 ⟨GoFile.mk 1 true 0 10 [], by decide, by decide⟩⟩

/-! Properties of the symbol matcher. -/

theorem trimLeftStar_cons_star (s : Str) : trimLeftStar ('*' :: s) = trimLeftStar s := by
  simp [trimLeftStar, List.dropWhile_cons]

theorem trimLeftStar_no_star (s : Str) (c : Char) (t : Str)
    (hc : (c == '*') = false) (hs : ∀ rest, s ≠ '*' :: rest) :
    trimLeftStar (s ++ c :: t) = s ++ c :: t := by
  cases s with
  | nil => simp [trimLeftStar, List.dropWhile_cons, hc]
  | cons a as =>
    have ha : (a == '*') = false := by
      cases hb : a == '*' with
      | false => rfl
      | true =>
        have ha' : a = '*' := beq_iff_eq.mp hb
        exact absurd (by rw [ha']) (hs as)
    simp [trimLeftStar, List.dropWhile_cons, ha]

/-- Claim C6: pointer-normalization of the symbol matcher.  For a spec
with a receiver type name, the pointer-receiver and value-receiver
declarations of the same method are indistinguishable: both match exactly
when the canonical string built from the receiver type name without
pointer marker and the function name equals the spec's canonical string. -/
theorem matches_pointer_normalization (s : FuncSpec) (fn ts pk : Str)
    (_hty : s.TypeName ≠ [])
    (hstar : ∀ rest, ts ≠ '*' :: rest) :
    FuncSpec.matches s ⟨fn, pk, some ⟨true, ts⟩⟩ = FuncSpec.matches s ⟨fn, pk, some ⟨false, ts⟩⟩
    ∧ (FuncSpec.matches s ⟨fn, pk, some ⟨false, ts⟩⟩ = true ↔ ts ++ '.' :: fn = s.toStr) := by
  have hdrop : trimLeftStar (ts ++ '.' :: fn) = ts ++ '.' :: fn :=
    trimLeftStar_no_star ts '.' fn (by decide) hstar
  constructor
  · have h1 : FuncSpec.matches s ⟨fn, pk, some ⟨true, ts⟩⟩
        = decide (trimLeftStar ('*' :: (ts ++ '.' :: fn)) = s.toStr) := rfl
    have h2 : FuncSpec.matches s ⟨fn, pk, some ⟨false, ts⟩⟩
        = decide (trimLeftStar (ts ++ '.' :: fn) = s.toStr) := rfl
    rw [h1, h2, trimLeftStar_cons_star]
  · have h2 : FuncSpec.matches s ⟨fn, pk, some ⟨false, ts⟩⟩
        = decide (trimLeftStar (ts ++ '.' :: fn) = s.toStr) := rfl
    rw [h2, hdrop]
    exact decide_eq_true_iff

/-- Witness for C6 at a concrete method spec and receiver type. -/
theorem matches_pointer_normalization_witness :
    (("pkg.T".data : Str) ≠ [] ∧ ∀ rest, ("pkg.T".data : Str) ≠ '*' :: rest) ∧
    FuncSpec.matches ⟨"pkg".data, "T".data, "M".data, ⟨"pkg".data, "pkg".data⟩⟩
        ⟨"M".data, "pkg".data, some ⟨true, "pkg.T".data⟩⟩ =
      FuncSpec.matches ⟨"pkg".data, "T".data, "M".data, ⟨"pkg".data, "pkg".data⟩⟩
        ⟨"M".data, "pkg".data, some ⟨false, "pkg.T".data⟩⟩ := by
  refine ⟨⟨by decide, ?_⟩, ?_⟩
  · intro rest h
    have hh : ("pkg.T".data).head? = some '*' := by rw [h]; rfl
    exact absurd hh (by decide)
  · exact (matches_pointer_normalization
      ⟨"pkg".data, "T".data, "M".data, ⟨"pkg".data, "pkg".data⟩⟩
      "M".data "pkg.T".data "pkg".data (by decide)
      (fun rest h => by
        have hh : ("pkg.T".data).head? = some '*' := by rw [h]; rfl
        exact absurd hh (by decide))).1

/-- Counterexample for claim C7: the matcher compares canonical dotted
strings only, so a spec with receiver type name B in package a does match
a receiver-less function F defined in a package whose import path is a.B,
contradicting the claim that such cross matches never occur. -/
theorem matches_cross_kind_counterexample :
    FuncSpec.matches ⟨"a".data, "B".data, "F".data, ⟨"a".data, "a".data⟩⟩
      ⟨"F".data, "a.B".data, none⟩ = true := by decide

/-- Amended claim C7: matches compares canonical dotted strings only.  A
spec with a receiver type name matches a receiver-less candidate exactly
when the candidate's package path joined with its name spells the spec's
three-part canonical string (possible when the import path itself ends in
the dotted type name), and a spec without a receiver type name matches a
method candidate exactly when the star-trimmed receiver string joined
with the name equals the spec's two-part canonical string; whenever those
strings differ, cross-kind matches return false. -/
theorem matches_canonical_string_only :
    (∀ (s : FuncSpec) (f : FuncObj), f.recv = none →
      (FuncSpec.matches s f = true ↔ f.pkgPath ++ '.' :: f.name = s.toStr))
    ∧ (∀ (s : FuncSpec) (f : FuncObj) (r : Recv), f.recv = some r →
      (FuncSpec.matches s f = true ↔
        trimLeftStar (recvTypeString r ++ '.' :: f.name) = s.toStr)) := by
  constructor
  · intro s f hr
    cases f with
    | mk nm pp rv =>
      cases hr
      exact decide_eq_true_iff
  · intro s f r hr
    cases f with
    | mk nm pp rv =>
      cases hr
      exact decide_eq_true_iff

/-- Witness for the amended C7 at concrete inputs. -/
theorem matches_canonical_string_only_witness :
    ((⟨"F".data, "other".data, none⟩ : FuncObj).recv = none) ∧
    FuncSpec.matches ⟨"a".data, "B".data, "F".data, ⟨"a".data, "a".data⟩⟩
      ⟨"F".data, "other".data, none⟩ = false := by
  refine ⟨rfl, ?_⟩
  have h := (matches_canonical_string_only.1
    ⟨"a".data, "B".data, "F".data, ⟨"a".data, "a".data⟩⟩
    ⟨"F".data, "other".data, none⟩ rfl)
  cases hm : FuncSpec.matches ⟨"a".data, "B".data, "F".data, ⟨"a".data, "a".data⟩⟩
      ⟨"F".data, "other".data, none⟩ with
  | false => rfl
  | true => exact absurd (h.mp hm) (by decide)

/-! Scope lemmas. -/

theorem findReusableName_mem (vs : VarSpec) (scope : Scope) (n : Str)
    (h : findReusableName vs scope = some n) : n ∈ scopeNames scope := by
  unfold findReusableName at h
  cases hu : vs.varTypeObj.underlying with
  | iface ms =>
    rw [hu] at h
    exact List.mem_of_find?_eq_some h
  | other => rw [hu] at h; exact absurd h (by simp)

theorem scopeNames_exists_entry (scope : Scope) (n : Str) (h : n ∈ scopeNames scope) :
    ∃ e ∈ scope, e.name = n := by
  rw [scopeNames, mem_sortStrs] at h
  obtain ⟨e, he, hn⟩ := List.mem_map.mp h
  exact ⟨e, he, hn⟩

theorem scopeLookup_mem_nodup (s : Scope) (e : ScopeEntry)
    (hnd : (s.map (fun x => x.name)).Nodup) (hmem : e ∈ s) :
    scopeLookupEntry s e.name = some e := by
  induction s with
  | nil => exact absurd hmem (by simp)
  | cons x xs ih =>
    rcases List.mem_cons.mp hmem with heq | htl
    · subst heq
      simp [scopeLookupEntry, List.find?_cons]
    · have hx : x.name ≠ e.name := by
        intro hxe
        have : e.name ∈ xs.map (fun x => x.name) := List.mem_map.mpr ⟨e, htl, rfl⟩
        rw [← hxe] at this
        exact (List.nodup_cons.mp hnd).1 this
      simp only [scopeLookupEntry, List.find?_cons]
      rw [decide_eq_false hx]
      exact ih (List.nodup_cons.mp hnd).2 htl

theorem scopeLookup_some_props (s : Scope) (n : Str) (e : ScopeEntry)
    (h : scopeLookupEntry s n = some e) : e ∈ s ∧ e.name = n := by
  refine ⟨List.mem_of_find?_eq_some h, ?_⟩
  have h2 := List.find?_some h
  simp only [decide_eq_true_eq] at h2
  exact h2

theorem scopeLookup_insert_self (s : Scope) (e : ScopeEntry) :
    (scopeLookupEntry (scopeInsert s e) e.name).isSome = true := by
  unfold scopeInsert
  by_cases h : (scopeLookupEntry s e.name).isSome = true
  · simp [h]
  · rw [if_neg h]
    have hnone : scopeLookupEntry s e.name = none := by
      cases hc : scopeLookupEntry s e.name with
      | none => rfl
      | some x => rw [hc] at h; exact absurd rfl h
    unfold scopeLookupEntry at hnone ⊢
    rw [List.find?_append, hnone]
    simp

/-- Claim C1: every rewritten call expression gains exactly one argument:
the chosen identifier is prepended, the pre-existing arguments follow
unchanged and in order (including for zero-argument calls), and the
chosen identifier is the reused in-scope name when the scan found one and
the VarSpec's configured name otherwise (scopes of well-formed Go
programs bind only nonempty names). -/
theorem rewriteCallExpr_arg_count_invariant (vs : VarSpec) (scope : Scope)
    (st : AppState) (call : CallExpr)
    (hnn : ∀ e ∈ scope, e.name ≠ []) :
    ∀ stc, rewriteCallExpr vs scope st (some call) = Except.ok stc →
      stc.2.1.args.length = call.args.length + 1
      ∧ stc.2.1.args.tail = call.args
      ∧ stc.2.1.fn = call.fn
      ∧ (stc.2.2 = true → ∃ n, findReusableName vs scope = some n
          ∧ stc.2.1.args.head? = some (GoExpr.ident n))
      ∧ (stc.2.2 = false → stc.2.1.args.head? = some (GoExpr.ident vs.Name)) := by
  intro stc h
  have hs : stc = ((rewriteCallExpr vs scope st (some call)).toOption.getD stc) := by
    rw [h]; rfl
  unfold rewriteCallExpr at h
  simp only [Except.ok.injEq] at h
  subst h
  refine ⟨by simp, by simp, by simp, ?_, ?_⟩
  · intro hused
    cases hf : findReusableName vs scope with
    | none =>
      exact absurd hused (by simp [chooseVarName, hf])
    | some n =>
      have hmemn : n ∈ scopeNames scope := findReusableName_mem vs scope n hf
      obtain ⟨e, hes, hen⟩ := scopeNames_exists_entry scope n hmemn
      have hne : n ≠ [] := hen ▸ hnn e hes
      refine ⟨n, rfl, ?_⟩
      simp [chooseVarName, hf, hne]
  · intro hused
    cases hf : findReusableName vs scope with
    | none => simp [chooseVarName, hf]
    | some n =>
      exact absurd hused (by simp [chooseVarName, hf])

/-- Witness for C1: an empty scope and a one-argument call; the rewritten
argument list has length two with the configured name first. -/
theorem rewriteCallExpr_arg_count_invariant_witness :
    (∀ e ∈ ([] : Scope), e.name ≠ []) ∧
    ((AppState.mk [] [], CallExpr.mk (GoExpr.ident "f".data)
        [GoExpr.ident "ctx".data, GoExpr.ident "g".data] 3, false) :
      AppState × CallExpr × Bool).2.1.args.length =
      (CallExpr.mk (GoExpr.ident "f".data) [GoExpr.ident "g".data] 3).args.length + 1 := by
  refine ⟨by simp, ?_⟩
  have h := rewriteCallExpr_arg_count_invariant
    (VarSpec.mk "ctx".data "context".data "Context".data "context.TODO()".data
      (PkgInfo.mk "context".data "context".data) (GoType.mk GoUnderlying.other []))
    [] (AppState.mk [] [])
    (CallExpr.mk (GoExpr.ident "f".data) [GoExpr.ident "g".data] 3)
    (by simp)
    ((AppState.mk [] [], CallExpr.mk (GoExpr.ident "f".data)
        [GoExpr.ident "ctx".data, GoExpr.ident "g".data] 3, false))
    (by decide)
  exact h.1

/-! Idempotence of variable insertion. -/

/-- Whether a statement is an initializer statement for a name: a define
assignment whose sole left-hand side is that identifier. -/
def isInitFor (n : Str) : Stmt → Bool
  | Stmt.assignStmt lhs tok _ => decide (tok = Tok.define) && decide (lhs = [GoExpr.ident n])
  | _ => false

/-- Number of initializer statements for a name in a body. -/
def countInit (n : Str) (body : List Stmt) : Nat := body.countP (isInitFor n)

theorem ensureVar_guard (pe : Str → Option GoExpr) (vs : VarSpec) (scope : Scope)
    (decl : FuncDecl) (st : AppState) (pos : Nat)
    (h : (scopeLookupEntry scope vs.Name).isSome = true) :
    ensureVar pe vs scope decl st pos = Except.ok (scope, decl, st) := by
  unfold ensureVar
  rw [if_pos h]

theorem ensureVar_ok_cases (pe : Str → Option GoExpr) (vs : VarSpec) (scope : Scope)
    (decl : FuncDecl) (st : AppState) (pos : Nat) (sc' : Scope) (d' : FuncDecl)
    (st' : AppState)
    (h : ensureVar pe vs scope decl st pos = Except.ok (sc', d', st')) :
    (sc' = scope ∧ d' = decl ∧ st' = st ∧ (scopeLookupEntry scope vs.Name).isSome = true)
    ∨ (scopeLookupEntry scope vs.Name = none
       ∧ (∃ ie, pe vs.InitExpr = some ie
            ∧ d'.body = Stmt.assignStmt [GoExpr.ident vs.Name] Tok.define [ie] :: decl.body)
       ∧ sc' = scopeInsert scope ⟨vs.Name, vs.varTypeObj, true, none⟩) := by
  unfold ensureVar at h
  by_cases hl : (scopeLookupEntry scope vs.Name).isSome = true
  · rw [if_pos hl] at h
    simp only [Except.ok.injEq, Prod.mk.injEq] at h
    exact Or.inl ⟨h.1.symm, h.2.1.symm, h.2.2.symm, hl⟩
  · rw [if_neg hl] at h
    have hnone : scopeLookupEntry scope vs.Name = none := by
      cases hc : scopeLookupEntry scope vs.Name with
      | none => rfl
      | some x => rw [hc] at hl; exact absurd rfl hl
    cases hpe : pe vs.InitExpr with
    | none => rw [hpe] at h; exact absurd h (by simp)
    | some ie =>
      rw [hpe] at h
      simp only [Except.ok.injEq, Prod.mk.injEq] at h
      refine Or.inr ⟨hnone, ⟨ie, rfl, ?_⟩, h.1.symm⟩
      rw [← h.2.1]

theorem rewriteCallSite_ok_cases (pe : Str → Option GoExpr) (vs : VarSpec)
    (sc : Scope) (d : FuncDecl) (st : AppState) (c : Option CallExpr) (p : Nat)
    (r : Scope × FuncDecl × AppState × CallExpr)
    (h : rewriteCallSite pe vs sc d st c p = Except.ok r) :
    (r.1 = sc ∧ r.2.1 = d)
    ∨ (scopeLookupEntry sc vs.Name = none
       ∧ countInit vs.Name r.2.1.body ≤ countInit vs.Name d.body + 1
       ∧ (scopeLookupEntry r.1 vs.Name).isSome = true) := by
  unfold rewriteCallSite at h
  cases hce : rewriteCallExpr vs sc st c with
  | error e => rw [hce] at h; exact absurd h (by simp)
  | ok stc =>
    rw [hce] at h
    obtain ⟨st1, call1, used⟩ := stc
    cases used with
    | true =>
      simp only [if_true] at h
      simp only [Except.ok.injEq] at h
      rw [← h]
      exact Or.inl ⟨rfl, rfl⟩
    | false =>
      simp only [Bool.false_eq_true, if_false] at h
      cases hev : ensureVar pe vs sc d st1 p with
      | error e => rw [hev] at h; exact absurd h (by simp)
      | ok sds =>
        rw [hev] at h
        obtain ⟨sc1, d1, st2⟩ := sds
        simp only [Except.ok.injEq] at h
        rcases ensureVar_ok_cases pe vs sc d st1 p sc1 d1 st2 hev with
          ⟨hsc, hd, _, _⟩ | ⟨hnone, ⟨ie, _, hbody⟩, hins⟩
        · rw [← h]
          exact Or.inl ⟨hsc, hd⟩
        · refine Or.inr ⟨hnone, ?_, ?_⟩
          · rw [← h]
            show countInit vs.Name d1.body ≤ countInit vs.Name d.body + 1
            rw [hbody]
            unfold countInit
            rw [List.countP_cons]
            by_cases hini : isInitFor vs.Name
                (Stmt.assignStmt [GoExpr.ident vs.Name] Tok.define [ie]) = true
            · rw [hini]; simp
            · simp only [hini]; simp
          · rw [← h]
            show (scopeLookupEntry sc1 vs.Name).isSome = true
            rw [hins]
            exact scopeLookup_insert_self sc ⟨vs.Name, vs.varTypeObj, true, none⟩

/-- Claim C2: variable insertion is idempotent.  When the enclosing scope
already binds the VarSpec's name, ensureVar returns scope, body and state
unchanged; consequently, processing two matched call sites of the same
function (or running the call-site rewrite twice over the same body)
inserts at most one initializer statement for that name. -/
theorem ensureVar_insertion_idempotent :
    (∀ (pe : Str → Option GoExpr) (vs : VarSpec) (scope : Scope) (decl : FuncDecl)
        (st : AppState) (pos : Nat),
      (scopeLookupEntry scope vs.Name).isSome = true →
      ensureVar pe vs scope decl st pos = Except.ok (scope, decl, st))
    ∧ (∀ (pe : Str → Option GoExpr) (vs : VarSpec) (sc₀ : Scope) (d₀ : FuncDecl)
        (st₀ : AppState) (c₁ : Option CallExpr) (p₁ : Nat) (c₂ : Option CallExpr)
        (p₂ : Nat) (r₁ r₂ : Scope × FuncDecl × AppState × CallExpr),
      rewriteCallSite pe vs sc₀ d₀ st₀ c₁ p₁ = Except.ok r₁ →
      rewriteCallSite pe vs r₁.1 r₁.2.1 r₁.2.2.1 c₂ p₂ = Except.ok r₂ →
      countInit vs.Name r₂.2.1.body ≤ countInit vs.Name d₀.body + 1) := by
  refine ⟨ensureVar_guard, ?_⟩
  intro pe vs sc₀ d₀ st₀ c₁ p₁ c₂ p₂ r₁ r₂ h₁ h₂
  rcases rewriteCallSite_ok_cases pe vs sc₀ d₀ st₀ c₁ p₁ r₁ h₁ with
    ⟨hsc₁, hd₁⟩ | ⟨hn₀, hcnt₁, hsome₁⟩
  · rcases rewriteCallSite_ok_cases pe vs r₁.1 r₁.2.1 r₁.2.2.1 c₂ p₂ r₂ h₂ with
      ⟨_, hd₂⟩ | ⟨_, hcnt₂, _⟩
    · rw [hd₂, hd₁]
      exact Nat.le_add_right _ _
    · rw [hd₁] at hcnt₂
      exact hcnt₂
  · rcases rewriteCallSite_ok_cases pe vs r₁.1 r₁.2.1 r₁.2.2.1 c₂ p₂ r₂ h₂ with
      ⟨_, hd₂⟩ | ⟨hn₁, _, _⟩
    · rw [hd₂]
      exact hcnt₁
    · rw [hn₁] at hsome₁
      exact absurd hsome₁ (by simp)

/-- Witness for C2: a scope already binding ctx leaves everything
untouched. -/
theorem ensureVar_insertion_idempotent_witness :
    (scopeLookupEntry [ScopeEntry.mk "ctx".data (GoType.mk GoUnderlying.other []) true none]
        ("ctx".data)).isSome = true
    ∧ ensureVar (fun _ => none)
        (VarSpec.mk "ctx".data "context".data "Context".data "context.TODO()".data
          (PkgInfo.mk "context".data "context".data) (GoType.mk GoUnderlying.other []))
        [ScopeEntry.mk "ctx".data (GoType.mk GoUnderlying.other []) true none]
        (FuncDecl.mk [] [] 0) (AppState.mk [] []) 0 =
      Except.ok ([ScopeEntry.mk "ctx".data (GoType.mk GoUnderlying.other []) true none],
        FuncDecl.mk [] [] 0, AppState.mk [] []) := by
  refine ⟨by decide, ?_⟩
  exact ensureVar_insertion_idempotent.1 (fun _ => none)
    (VarSpec.mk "ctx".data "context".data "Context".data "context.TODO()".data
      (PkgInfo.mk "context".data "context".data) (GoType.mk GoUnderlying.other []))
    [ScopeEntry.mk "ctx".data (GoType.mk GoUnderlying.other []) true none]
    (FuncDecl.mk [] [] 0) (AppState.mk [] []) 0 (by decide)

/-! Reuse of an existing in-scope binding. -/

theorem findReusable_of_exists (vs : VarSpec) (scope : Scope) (ms : List Str)
    (hu : vs.varTypeObj.underlying = GoUnderlying.iface ms)
    (e : ScopeEntry) (hmem : e ∈ scope) (himp : implementsIface e.ty ms = true)
    (hnd : (scope.map (fun x => x.name)).Nodup) :
    ∃ n, findReusableName vs scope = some n
      ∧ ∃ e2, scopeLookupEntry scope n = some e2 ∧ implementsIface e2.ty ms = true := by
  unfold findReusableName
  rw [hu]
  simp only []
  have hmemn : e.name ∈ scopeNames scope := by
    rw [scopeNames, mem_sortStrs]
    exact List.mem_map.mpr ⟨e, hmem, rfl⟩
  have hpred : (fun n => match scopeLookupEntry scope n with
      | some e2 => implementsIface e2.ty ms
      | none => false) e.name = true := by
    simp only []
    rw [scopeLookup_mem_nodup scope e hnd hmem]
    exact himp
  cases hf : (scopeNames scope).find? (fun n =>
      match scopeLookupEntry scope n with
      | some e2 => implementsIface e2.ty ms
      | none => false) with
  | none =>
    rw [List.find?_eq_none] at hf
    exact absurd hpred (hf e.name hmemn)
  | some n =>
    have hp := List.find?_some hf
    simp only [] at hp
    refine ⟨n, rfl, ?_⟩
    cases hl : scopeLookupEntry scope n with
    | none => rw [hl] at hp; exact absurd hp (by simp)
    | some e2 => rw [hl] at hp; exact ⟨e2, rfl, hp⟩

/-- Claim C3: reuse correctness.  When the variable's resolved type is an
interface and some binding in the enclosing scope implements it, the
rewritten call site reuses a binding that implements the interface as its
prepended first argument, the scope and the function body are returned
unchanged (no variable declaration is synthesized), and no file gains an
entry in its list of imported packages (the file is only marked
modified). -/
theorem reuse_correctness (pe : Str → Option GoExpr) (vs : VarSpec) (scope : Scope)
    (decl : FuncDecl) (st : AppState) (call : CallExpr) (pos : Nat) (ms : List Str)
    (hu : vs.varTypeObj.underlying = GoUnderlying.iface ms)
    (e : ScopeEntry) (hmem : e ∈ scope) (himp : implementsIface e.ty ms = true)
    (hnd : (scope.map (fun x => x.name)).Nodup)
    (hnn : ∀ x ∈ scope, x.name ≠ []) :
    ∃ n e2, scopeLookupEntry scope n = some e2 ∧ implementsIface e2.ty ms = true
      ∧ rewriteCallSite pe vs scope decl st (some call) pos =
          Except.ok (scope, decl, (markModified st call.pos).1,
            CallExpr.mk call.fn (GoExpr.ident n :: call.args) call.pos)
      ∧ (markModified st call.pos).1.files = st.files := by
  obtain ⟨n, hf, e2, hl, himp2⟩ := findReusable_of_exists vs scope ms hu e hmem himp hnd
  have hprops := scopeLookup_some_props scope n e2 hl
  have hne : n ≠ [] := hprops.2 ▸ hnn e2 hprops.1
  have hcv : chooseVarName vs scope = (n, true) := by
    unfold chooseVarName
    rw [hf]
    simp [hne]
  refine ⟨n, e2, hl, himp2, ?_, (markModified_never_aborts st call.pos).1⟩
  unfold rewriteCallSite rewriteCallExpr
  rw [hcv]
  cases call with
  | mk fn args cpos =>
    simp only []
    cases hmk : (markModified st cpos).2 with
    | some f => simp [hmk]
    | none => simp [hmk]

/-- Witness for C3 at a one-entry scope implementing a one-method
interface. -/
theorem reuse_correctness_witness :
    ((GoType.mk (GoUnderlying.iface ["M".data]) []).underlying = GoUnderlying.iface ["M".data]
      ∧ ScopeEntry.mk "c".data (GoType.mk GoUnderlying.other ["M".data]) true none ∈
          ([ScopeEntry.mk "c".data (GoType.mk GoUnderlying.other ["M".data]) true none] : Scope)
      ∧ implementsIface (GoType.mk GoUnderlying.other ["M".data]) ["M".data] = true)
    ∧ (∃ n e2,
        scopeLookupEntry
          [ScopeEntry.mk "c".data (GoType.mk GoUnderlying.other ["M".data]) true none] n =
            some e2
        ∧ implementsIface e2.ty ["M".data] = true
        ∧ rewriteCallSite (fun _ => none)
            (VarSpec.mk "ctx".data "context".data "Context".data "context.TODO()".data
              (PkgInfo.mk "context".data "context".data)
              (GoType.mk (GoUnderlying.iface ["M".data]) []))
            [ScopeEntry.mk "c".data (GoType.mk GoUnderlying.other ["M".data]) true none]
            (FuncDecl.mk [] [] 0) (AppState.mk [] [])
            (some (CallExpr.mk (GoExpr.ident "f".data) [] 9)) 0 =
          Except.ok
            ([ScopeEntry.mk "c".data (GoType.mk GoUnderlying.other ["M".data]) true none],
             FuncDecl.mk [] [] 0,
             (markModified (AppState.mk [] []) (CallExpr.mk (GoExpr.ident "f".data) [] 9).pos).1,
             CallExpr.mk (CallExpr.mk (GoExpr.ident "f".data) [] 9).fn
               (GoExpr.ident n :: (CallExpr.mk (GoExpr.ident "f".data) [] 9).args)
               (CallExpr.mk (GoExpr.ident "f".data) [] 9).pos)
        ∧ (markModified (AppState.mk [] [])
            (CallExpr.mk (GoExpr.ident "f".data) [] 9).pos).1.files =
            (AppState.mk [] []).files) := by
  refine ⟨⟨rfl, by simp, by decide⟩, ?_⟩
  exact reuse_correctness (fun _ => none)
    (VarSpec.mk "ctx".data "context".data "Context".data "context.TODO()".data
      (PkgInfo.mk "context".data "context".data)
      (GoType.mk (GoUnderlying.iface ["M".data]) []))
    [ScopeEntry.mk "c".data (GoType.mk GoUnderlying.other ["M".data]) true none]
    (FuncDecl.mk [] [] 0) (AppState.mk [] [])
    (CallExpr.mk (GoExpr.ident "f".data) [] 9) 0 ["M".data] rfl
    (ScopeEntry.mk "c".data (GoType.mk GoUnderlying.other ["M".data]) true none)
    (by simp) (by decide) (by decide) (by decide)

/-! Declaration rewriting. -/

/-- Claim C4: when rewriteFuncDecl succeeds, the rewritten declaration's
parameter count is the old count plus one, the new first parameter is
named by the VarSpec and typed with the variable package's qualified type
name, and the pre-existing parameters follow unchanged; when no defined
symbol satisfies the matcher it fails with the not-found error (the
declaration list is left untouched). -/
theorem rewriteFuncDecl_arity_invariant (vs : VarSpec) (spec : FuncSpec)
    (defs : List (FuncObj × Scope × FuncDecl)) (st : AppState) :
    (∀ d2 st2, rewriteFuncDecl vs spec defs st = Except.ok (d2, st2) →
      ∃ fo sc d, defs.find? (fun x => spec.matches x.1) = some (fo, sc, d)
        ∧ d2.params.length = d.params.length + 1
        ∧ d2.params.head? = some (ParamField.mk [vs.Name]
            (GoExpr.selector (GoExpr.ident vs.pkg.name) vs.TypeName))
        ∧ d2.params.tail = d.params)
    ∧ ((∀ x ∈ defs, spec.matches x.1 = false) →
        rewriteFuncDecl vs spec defs st = Except.error (notFoundMsg spec)) := by
  constructor
  · intro d2 st2 h
    unfold rewriteFuncDecl at h
    cases hfind : defs.find? (fun x => spec.matches x.1) with
    | none => rw [hfind] at h; exact absurd h (by simp)
    | some fsd =>
      obtain ⟨fo, sc, d⟩ := fsd
      rw [hfind] at h
      simp only [Except.ok.injEq, Prod.mk.injEq] at h
      refine ⟨fo, sc, d, rfl, ?_, ?_, ?_⟩
      · rw [← h.1]; simp
      · rw [← h.1]; rfl
      · rw [← h.1]; rfl
  · intro hall
    unfold rewriteFuncDecl
    rw [List.find?_eq_none.mpr (fun x hx => by simp [hall x hx])]

/-- Witness for C4: a one-element definition list in which nothing matches
a spec for a different function name. -/
theorem rewriteFuncDecl_arity_invariant_witness :
    (∀ x ∈ [(FuncObj.mk "G".data "p".data none, ([] : Scope), FuncDecl.mk [] [] 0)],
        FuncSpec.matches (FuncSpec.mk "p".data [] "F".data (PkgInfo.mk "p".data "p".data)) x.1
          = false)
    ∧ rewriteFuncDecl
        (VarSpec.mk "ctx".data "context".data "Context".data "context.TODO()".data
          (PkgInfo.mk "context".data "context".data) (GoType.mk GoUnderlying.other []))
        (FuncSpec.mk "p".data [] "F".data (PkgInfo.mk "p".data "p".data))
        [(FuncObj.mk "G".data "p".data none, ([] : Scope), FuncDecl.mk [] [] 0)]
        (AppState.mk [] []) =
      Except.error (notFoundMsg (FuncSpec.mk "p".data [] "F".data (PkgInfo.mk "p".data "p".data))) := by
  refine ⟨by decide, ?_⟩
  exact (rewriteFuncDecl_arity_invariant
    (VarSpec.mk "ctx".data "context".data "Context".data "context.TODO()".data
      (PkgInfo.mk "context".data "context".data) (GoType.mk GoUnderlying.other []))
    (FuncSpec.mk "p".data [] "F".data (PkgInfo.mk "p".data "p".data))
    [(FuncObj.mk "G".data "p".data none, ([] : Scope), FuncDecl.mk [] [] 0)]
    (AppState.mk [] [])).2 (by decide)

/-! Stub-initializer pruning. -/

/-- Claim C5: removeStubVarDecl prunes exactly the canonical stub.  When
the VarSpec is the canonical context spec, the declaration's top scope
binds a same-named variable object, and its defining statement is a
single-LHS define assignment whose right-hand side prints exactly as
context.TODO(), that statement is removed; for a non-canonical VarSpec,
or any other initializer shape, the body is left in place.  The final
conjunct ties the pruning to the declaration rewrite: the body produced
by a successful rewriteFuncDecl is exactly removeStubVarDecl applied to
the matched declaration's body. -/
theorem removeStubVarDecl_pruning :
    (∀ (vs : VarSpec) (sc : Scope) (body : List Stmt) (e : ScopeEntry) (i : Nat)
        (lhs rhs : List GoExpr) (r : GoExpr) (rs : List GoExpr),
      vs.PkgPath = "context".data → vs.TypeName = "Context".data →
      scopeLookupEntry sc vs.Name = some e → e.isVar = true → e.declIdx = some i →
      body[i]? = some (Stmt.assignStmt lhs Tok.define rhs) → lhs.length = 1 →
      rhs = r :: rs → formatExpr r = "context.TODO()".data →
      removeStubVarDecl vs sc body = body.eraseIdx i)
    ∧ (∀ (vs : VarSpec) (sc : Scope) (body : List Stmt),
      (vs.PkgPath ≠ "context".data ∨ vs.TypeName ≠ "Context".data) →
      removeStubVarDecl vs sc body = body)
    ∧ (∀ (vs : VarSpec) (sc : Scope) (body : List Stmt) (e : ScopeEntry) (i : Nat)
        (lhs rhs : List GoExpr) (tok : Tok),
      scopeLookupEntry sc vs.Name = some e → e.declIdx = some i →
      body[i]? = some (Stmt.assignStmt lhs tok rhs) →
      (tok ≠ Tok.define ∨ lhs.length ≠ 1 ∨
        ∀ r rs, rhs = r :: rs → formatExpr r ≠ "context.TODO()".data) →
      removeStubVarDecl vs sc body = body)
    ∧ (∀ (vs : VarSpec) (spec : FuncSpec) (defs : List (FuncObj × Scope × FuncDecl))
        (st : AppState) (fo : FuncObj) (sc : Scope) (d d2 : FuncDecl) (st2 : AppState),
      defs.find? (fun x => spec.matches x.1) = some (fo, sc, d) →
      rewriteFuncDecl vs spec defs st = Except.ok (d2, st2) →
      d2.body = removeStubVarDecl vs sc d.body) := by
  refine ⟨?_, ?_, ?_, ?_⟩
  · intro vs sc body e i lhs rhs r rs hpp htn hlook hvar hidx hbody hlen hr hfmt
    unfold removeStubVarDecl
    rw [if_neg (by push_neg; exact ⟨hpp, htn⟩)]
    rw [hlook]
    simp only []
    rw [hvar, if_neg (by decide)]
    rw [hidx]
    simp only []
    rw [hbody]
    simp only []
    rw [if_pos (by simp [hlen])]
    rw [hr]
    simp only [List.head?_cons]
    rw [if_pos hfmt]
  · intro vs sc body hne
    unfold removeStubVarDecl
    rw [if_pos hne]
  · intro vs sc body e i lhs rhs tok hlook hidx hbody hmis
    unfold removeStubVarDecl
    by_cases hcanon : vs.PkgPath ≠ "context".data ∨ vs.TypeName ≠ "Context".data
    · rw [if_pos hcanon]
    · rw [if_neg hcanon]
      rw [hlook]
      simp only []
      cases hvar : e.isVar with
      | false => rw [if_pos rfl]
      | true =>
        rw [if_neg (by decide)]
        rw [hidx]
        simp only []
        rw [hbody]
        simp only []
        rcases hmis with htok | hlen | hfmt
        · rw [if_neg (fun hc => htok hc.1)]
        · rw [if_neg (fun hc => hlen hc.2)]
        · by_cases hcond : tok = Tok.define ∧ lhs.length = 1
          · rw [if_pos hcond]
            cases rhs with
            | nil => rfl
            | cons r rs =>
              simp only [List.head?_cons]
              rw [if_neg (hfmt r rs rfl)]
          · rw [if_neg hcond]
  · intro vs spec defs st fo sc d d2 st2 hfind h
    unfold rewriteFuncDecl at h
    rw [hfind] at h
    simp only [Except.ok.injEq, Prod.mk.injEq] at h
    rw [← h.1]

/-- Witness for C5: a body whose first statement is the canonical stub is
pruned to its remaining statements. -/
theorem removeStubVarDecl_pruning_witness :
    ([Stmt.assignStmt [GoExpr.ident "ctx".data] Tok.define
        [GoExpr.callE (GoExpr.selector (GoExpr.ident "context".data) "TODO".data) []],
      Stmt.otherStmt 0][0]? = some (Stmt.assignStmt [GoExpr.ident "ctx".data] Tok.define
        [GoExpr.callE (GoExpr.selector (GoExpr.ident "context".data) "TODO".data) []]))
    ∧ removeStubVarDecl
        (VarSpec.mk "ctx".data "context".data "Context".data "context.TODO()".data
          (PkgInfo.mk "context".data "context".data) (GoType.mk GoUnderlying.other []))
        [ScopeEntry.mk "ctx".data (GoType.mk GoUnderlying.other []) true (some 0)]
        [Stmt.assignStmt [GoExpr.ident "ctx".data] Tok.define
          [GoExpr.callE (GoExpr.selector (GoExpr.ident "context".data) "TODO".data) []],
         Stmt.otherStmt 0] =
      ([Stmt.assignStmt [GoExpr.ident "ctx".data] Tok.define
          [GoExpr.callE (GoExpr.selector (GoExpr.ident "context".data) "TODO".data) []],
        Stmt.otherStmt 0].eraseIdx 0) := by
  refine ⟨rfl, ?_⟩
  exact removeStubVarDecl_pruning.1
    (VarSpec.mk "ctx".data "context".data "Context".data "context.TODO()".data
      (PkgInfo.mk "context".data "context".data) (GoType.mk GoUnderlying.other []))
    [ScopeEntry.mk "ctx".data (GoType.mk GoUnderlying.other []) true (some 0)]
    [Stmt.assignStmt [GoExpr.ident "ctx".data] Tok.define
      [GoExpr.callE (GoExpr.selector (GoExpr.ident "context".data) "TODO".data) []],
     Stmt.otherStmt 0]
    (ScopeEntry.mk "ctx".data (GoType.mk GoUnderlying.other []) true (some 0)) 0
    [GoExpr.ident "ctx".data]
    [GoExpr.callE (GoExpr.selector (GoExpr.ident "context".data) "TODO".data) []]
    (GoExpr.callE (GoExpr.selector (GoExpr.ident "context".data) "TODO".data) []) []
    rfl rfl (by decide) rfl rfl rfl rfl rfl (by decide)

/-! Acceptance direction of the rxVarSpec characterization. -/

theorem matchTail_at_split (ty sp2 sp3 ie : Str)
    (ht : ty ≠ []) (hta : ∀ c ∈ ty, isIdentChar c = true)
    (h2a : ∀ c ∈ sp2, (c == ' ') = true)
    (h3a : ∀ c ∈ sp3, (c == ' ') = true)
    (hi : ie ≠ []) (hih : ∀ c cs, ie = c :: cs → (c == ' ') = false)
    (hin : ∀ c ∈ ie, (c == '\n') = false) :
    matchTail (ty ++ (sp2 ++ '=' :: (sp3 ++ ie))) = some (ty, ie) := by
  have htake : (ty ++ (sp2 ++ '=' :: (sp3 ++ ie))).takeWhile isIdentChar = ty := by
    cases sp2 with
    | nil => exact takeWhile_all_append ty '=' (sp3 ++ ie) hta (by decide)
    | cons s0 ss =>
      have hs0 : s0 = ' ' := beq_iff_eq.mp (h2a s0 (List.mem_cons_self s0 ss))
      have : isIdentChar s0 = false := by rw [hs0]; decide
      exact takeWhile_all_append ty s0 (ss ++ '=' :: (sp3 ++ ie)) hta this
  have hdrop : (ty ++ (sp2 ++ '=' :: (sp3 ++ ie))).dropWhile isIdentChar =
      sp2 ++ '=' :: (sp3 ++ ie) := by
    cases sp2 with
    | nil => exact dropWhile_all_append ty '=' (sp3 ++ ie) hta (by decide)
    | cons s0 ss =>
      have hs0 : s0 = ' ' := beq_iff_eq.mp (h2a s0 (List.mem_cons_self s0 ss))
      have : isIdentChar s0 = false := by rw [hs0]; decide
      exact dropWhile_all_append ty s0 (ss ++ '=' :: (sp3 ++ ie)) hta this
  have hdrop2 : (sp2 ++ '=' :: (sp3 ++ ie)).dropWhile (fun c => c == ' ') =
      '=' :: (sp3 ++ ie) :=
    dropWhile_all_append sp2 '=' (sp3 ++ ie) h2a (by decide)
  obtain ⟨c0, cs0, rfl⟩ : ∃ c0 cs0, ie = c0 :: cs0 := by
    cases ie with
    | nil => exact absurd rfl hi
    | cons c0 cs0 => exact ⟨c0, cs0, rfl⟩
  have hdrop3 : (sp3 ++ c0 :: cs0).dropWhile (fun c => c == ' ') = c0 :: cs0 :=
    dropWhile_all_append sp3 c0 cs0 h3a (hih c0 cs0 rfl)
  have hall : (c0 :: cs0).all (fun c => !(c == '\n')) = true :=
    List.all_eq_true.mpr (fun c hc => by rw [hin c hc]; rfl)
  unfold matchTail
  rw [htake, if_neg ht, hdrop, hdrop2]
  simp only []
  rw [hdrop3]
  rw [if_neg (by simp)]
  rw [if_pos hall]

theorem dropWhile_ident_gives_head (tail0 : Str) :
    ∀ mid : Str, (∀ c ∈ mid, isGoSpace c = false ∧ (c == '=') = false) →
      ∃ d ds, (mid ++ '.' :: tail0).dropWhile isIdentChar = d :: ds
        ∧ (d == ' ') = false ∧ (d == '=') = false := by
  intro mid
  induction mid with
  | nil =>
    intro _
    exact ⟨'.', tail0, by rw [List.nil_append, List.dropWhile_cons, if_neg (by decide)],
      by decide, by decide⟩
  | cons c cs ih =>
    intro hchars
    have hc := hchars c (List.mem_cons_self c cs)
    have hcs : ∀ x ∈ cs, isGoSpace x = false ∧ (x == '=') = false :=
      fun x hx => hchars x (List.mem_cons_of_mem c hx)
    by_cases hident : isIdentChar c = true
    · obtain ⟨d, ds, hd, h1, h2⟩ := ih hcs
      exact ⟨d, ds, by rw [List.cons_append, List.dropWhile_cons, hident, if_pos rfl]; exact hd,
        h1, h2⟩
    · have hident' : isIdentChar c = false := by
        cases hb : isIdentChar c with
        | false => rfl
        | true => exact absurd hb hident
      exact ⟨c, cs ++ '.' :: tail0,
        by rw [List.cons_append, List.dropWhile_cons, hident']; simp,
        isGoSpace_false_not_space hc.1, hc.2⟩

theorem matchTail_none_of_head (u : Str) (d : Char) (ds : Str)
    (hd : u.dropWhile isIdentChar = d :: ds)
    (hsp : (d == ' ') = false) (heq : (d == '=') = false) :
    matchTail u = none := by
  have hne : d ≠ '=' := by
    intro hc
    rw [hc] at heq
    simp at heq
  unfold matchTail
  by_cases hty : u.takeWhile isIdentChar = []
  · rw [if_pos hty]
  · rw [if_neg hty, hd, List.dropWhile_cons, hsp, if_neg (by simp)]
    split
    · rename_i r2 heq2
      exact absurd (List.cons.inj heq2).1 hne
    · rfl

theorem scanQualified_through (tail0 ty ie : Str)
    (hT : matchTail tail0 = some (ty, ie)) :
    ∀ (mid acc : Str), (∀ c ∈ mid, isGoSpace c = false ∧ (c == '=') = false) →
      (acc ≠ [] ∨ mid ≠ []) →
      scanQualified acc (mid ++ '.' :: tail0) = some (acc.reverse ++ mid, ty, ie) := by
  intro mid
  induction mid with
  | nil =>
    intro acc _ hne
    have hacc : acc ≠ [] := by
      rcases hne with h | h
      · exact h
      · exact absurd rfl h
    show scanQualified acc ('.' :: tail0) = _
    unfold scanQualified
    rw [if_pos ⟨rfl, hacc⟩, hT]
    simp
  | cons c cs ih =>
    intro acc hchars hne
    have hc := hchars c (List.mem_cons_self c cs)
    have hcs : ∀ x ∈ cs, isGoSpace x = false ∧ (x == '=') = false :=
      fun x hx => hchars x (List.mem_cons_of_mem c hx)
    have hstep : scanQualified (c :: acc) (cs ++ '.' :: tail0) =
        some (acc.reverse ++ c :: cs, ty, ie) := by
      rw [ih (c :: acc) hcs (Or.inl (by simp))]
      rw [List.reverse_cons, List.append_assoc]
      rfl
    show scanQualified acc (c :: (cs ++ '.' :: tail0)) = _
    unfold scanQualified
    by_cases hdot : c = '.'
    · by_cases hacc : acc = []
      · rw [if_neg (fun hcon => hcon.2 hacc)]
        rw [if_neg (by rw [hdot]; decide)]
        exact hstep
      · rw [if_pos ⟨hdot, hacc⟩]
        obtain ⟨d, ds, hd, h1, h2⟩ := dropWhile_ident_gives_head tail0 cs hcs
        rw [matchTail_none_of_head (cs ++ '.' :: tail0) d ds hd h1 h2]
        exact hstep
    · rw [if_neg (fun hcon => hdot hcon.1)]
      rw [if_neg (by simp [hc.1])]
      exact hstep

theorem rxVarSpecMatch_accepts (name sp1 pkg ty sp2 sp3 ie : Str)
    (hn : name ≠ []) (hna : ∀ c ∈ name, isIdentChar c = true)
    (h1 : sp1 ≠ []) (h1a : ∀ c ∈ sp1, (c == ' ') = true)
    (hp : pkg ≠ []) (hpa : ∀ c ∈ pkg, isGoSpace c = false ∧ (c == '=') = false)
    (ht : ty ≠ []) (hta : ∀ c ∈ ty, isIdentChar c = true)
    (h2a : ∀ c ∈ sp2, (c == ' ') = true) (h3a : ∀ c ∈ sp3, (c == ' ') = true)
    (hi : ie ≠ []) (hih : ∀ c cs, ie = c :: cs → (c == ' ') = false)
    (hin : ∀ c ∈ ie, (c == '\n') = false) :
    rxVarSpecMatch (name ++ (sp1 ++ (pkg ++ '.' :: (ty ++ (sp2 ++ '=' :: (sp3 ++ ie)))))) =
      some (name, pkg, ty, ie) := by
  obtain ⟨s0, ss, rfl⟩ : ∃ s0 ss, sp1 = s0 :: ss := by
    cases sp1 with
    | nil => exact absurd rfl h1
    | cons s0 ss => exact ⟨s0, ss, rfl⟩
  obtain ⟨p0, ps, rfl⟩ : ∃ p0 ps, pkg = p0 :: ps := by
    cases pkg with
    | nil => exact absurd rfl hp
    | cons p0 ps => exact ⟨p0, ps, rfl⟩
  have hs0 : s0 = ' ' := beq_iff_eq.mp (h1a s0 (List.mem_cons_self s0 ss))
  have hp0 := hpa p0 (List.mem_cons_self p0 ps)
  have hidents0 : isIdentChar s0 = false := by rw [hs0]; decide
  have hsp0 : (p0 == ' ') = false := isGoSpace_false_not_space hp0.1
  have htake : ((name ++ (s0 :: ss ++ (p0 :: ps ++ '.' ::
      (ty ++ (sp2 ++ '=' :: (sp3 ++ ie)))))).takeWhile isIdentChar) = name :=
    takeWhile_all_append name s0 _ hna hidents0
  have hdropn : ((name ++ (s0 :: ss ++ (p0 :: ps ++ '.' ::
      (ty ++ (sp2 ++ '=' :: (sp3 ++ ie)))))).dropWhile isIdentChar) =
      s0 :: ss ++ (p0 :: ps ++ '.' :: (ty ++ (sp2 ++ '=' :: (sp3 ++ ie)))) :=
    dropWhile_all_append name s0 _ hna hidents0
  have htake2 : ((s0 :: ss ++ (p0 :: ps ++ '.' ::
      (ty ++ (sp2 ++ '=' :: (sp3 ++ ie))))).takeWhile (fun c => c == ' ')) = s0 :: ss :=
    takeWhile_all_append (s0 :: ss) p0 _ h1a hsp0
  have hdrop2 : ((s0 :: ss ++ (p0 :: ps ++ '.' ::
      (ty ++ (sp2 ++ '=' :: (sp3 ++ ie))))).dropWhile (fun c => c == ' ')) =
      p0 :: ps ++ '.' :: (ty ++ (sp2 ++ '=' :: (sp3 ++ ie))) :=
    dropWhile_all_append (s0 :: ss) p0 _ h1a hsp0
  have hscan : scanQualified [] ((p0 :: ps) ++ '.' ::
      (ty ++ (sp2 ++ '=' :: (sp3 ++ ie)))) = some (p0 :: ps, ty, ie) := by
    have hT := matchTail_at_split ty sp2 sp3 ie ht hta h2a h3a hi hih hin
    have := scanQualified_through (ty ++ (sp2 ++ '=' :: (sp3 ++ ie))) ty ie hT
      (p0 :: ps) [] hpa (Or.inr (by simp))
    simpa using this
  unfold rxVarSpecMatch
  rw [htake, if_neg hn, hdropn, htake2, if_neg (by simp), hdrop2, hscan]

/-! Soundness direction of the rxVarSpec characterization. -/

theorem mem_takeWhile_space {l : List Char} {c : Char}
    (hc : c ∈ l.takeWhile (fun c => c == ' ')) : (c == ' ') = true := by
  have h0 := List.mem_takeWhile_imp hc
  exact h0

theorem matchTail_sound (t ty ie : Str) (h : matchTail t = some (ty, ie)) :
    ty = t.takeWhile isIdentChar ∧ ty ≠ [] ∧ (∀ c ∈ ty, isIdentChar c = true)
    ∧ ∃ sp2 sp3, (∀ c ∈ sp2, (c == ' ') = true) ∧ (∀ c ∈ sp3, (c == ' ') = true)
        ∧ t = ty ++ (sp2 ++ '=' :: (sp3 ++ ie))
        ∧ ie ≠ [] ∧ (∀ c ∈ ie, (c == '\n') = false) := by
  unfold matchTail at h
  by_cases hty : t.takeWhile isIdentChar = []
  · rw [if_pos hty] at h
    exact absurd h (by simp)
  · rw [if_neg hty] at h
    have hsplit1 : t = t.takeWhile isIdentChar ++ t.dropWhile isIdentChar :=
      (List.takeWhile_append_dropWhile isIdentChar t).symm
    have hsplit2 : t.dropWhile isIdentChar =
        (t.dropWhile isIdentChar).takeWhile (fun c => c == ' ') ++
          (t.dropWhile isIdentChar).dropWhile (fun c => c == ' ') :=
      (List.takeWhile_append_dropWhile (fun c => c == ' ') (t.dropWhile isIdentChar)).symm
    cases hr1 : (t.dropWhile isIdentChar).dropWhile (fun c => c == ' ') with
    | nil => rw [hr1] at h; exact absurd h (by simp)
    | cons d r2 =>
      rw [hr1] at h
      have hd : d = '=' := by
        by_contra hne
        have : (match d :: r2 with
            | '=' :: r2 =>
              if r2.dropWhile (fun c => c == ' ') = [] then
                if r2 = [] then none else some (t.takeWhile isIdentChar, [' '])
              else if (r2.dropWhile (fun c => c == ' ')).all (fun c => !(c == '\n')) then
                some (t.takeWhile isIdentChar, r2.dropWhile (fun c => c == ' '))
              else none
            | _ => (none : Option (Str × Str))) = none := by
          split
          · rename_i r2' heq2
            exact absurd (List.cons.inj heq2).1 hne
          · rfl
        rw [this] at h
        exact absurd h (by simp)
      subst hd
      simp only [] at h
      have htyval : ty = t.takeWhile isIdentChar ∧
          ∃ sp3, (∀ c ∈ sp3, (c == ' ') = true) ∧ r2 = sp3 ++ ie
            ∧ ie ≠ [] ∧ (∀ c ∈ ie, (c == '\n') = false) := by
        by_cases hie : r2.dropWhile (fun c => c == ' ') = []
        · rw [if_pos hie] at h
          by_cases hr2 : r2 = []
          · rw [if_pos hr2] at h
            exact absurd h (by simp)
          · rw [if_neg hr2] at h
            simp only [Option.some.injEq, Prod.mk.injEq] at h
            have hall : ∀ x ∈ r2, (x == ' ') = true := List.dropWhile_eq_nil_iff.mp hie
            have hlast : r2.getLast hr2 = ' ' :=
              beq_iff_eq.mp (hall _ (List.getLast_mem hr2))
            refine ⟨h.1.symm, r2.dropLast, ?_, ?_, ?_, ?_⟩
            · exact fun c hc => hall c (List.dropLast_subset r2 hc)
            · rw [← h.2, ← hlast]
              exact (List.dropLast_append_getLast hr2).symm
            · rw [← h.2]; simp
            · intro c hc
              rw [← h.2] at hc
              have : c = ' ' := by simpa using hc
              rw [this]; rfl
        · rw [if_neg hie] at h
          by_cases hnl : (r2.dropWhile (fun c => c == ' ')).all (fun c => !(c == '\n')) = true
          · rw [if_pos hnl] at h
            simp only [Option.some.injEq, Prod.mk.injEq] at h
            refine ⟨h.1.symm, r2.takeWhile (fun c => c == ' '), ?_, ?_, ?_, ?_⟩
            · exact fun c hc => mem_takeWhile_space hc
            · rw [← h.2]
              exact (List.takeWhile_append_dropWhile (fun c => c == ' ') r2).symm
            · rw [← h.2]; exact hie
            · intro c hc
              rw [← h.2] at hc
              have := List.all_eq_true.mp hnl c hc
              simpa using this
          · rw [if_neg hnl] at h
            exact absurd h (by simp)
      obtain ⟨hty2, sp3, h3a, hr2eq, hie2, hin2⟩ := htyval
      refine ⟨hty2, by rw [hty2] at *; exact hty, ?_, ?_⟩
      · intro c hc
        rw [hty2] at hc
        exact List.mem_takeWhile_imp hc
      · refine ⟨(t.dropWhile isIdentChar).takeWhile (fun c => c == ' '), sp3,
          fun c hc => mem_takeWhile_space hc, h3a, ?_, hie2, hin2⟩
        rw [hty2]
        calc t = t.takeWhile isIdentChar ++ t.dropWhile isIdentChar := hsplit1
        _ = t.takeWhile isIdentChar ++
            ((t.dropWhile isIdentChar).takeWhile (fun c => c == ' ') ++
              (t.dropWhile isIdentChar).dropWhile (fun c => c == ' ')) := by rw [← hsplit2]
        _ = t.takeWhile isIdentChar ++
            ((t.dropWhile isIdentChar).takeWhile (fun c => c == ' ') ++ '=' :: (sp3 ++ ie)) := by
            rw [hr1, hr2eq]

theorem scanQualified_sound (rest : Str) :
    ∀ (acc pkg ty ie : Str), scanQualified acc rest = some (pkg, ty, ie) →
    ∃ pre tail, rest = pre ++ '.' :: tail ∧ pkg = acc.reverse ++ pre
      ∧ (acc = [] → pre ≠ [])
      ∧ (∀ c ∈ pre, isGoSpace c = false)
      ∧ matchTail tail = some (ty, ie) := by
  induction rest with
  | nil =>
    intro acc pkg ty ie h
    exact absurd h (by simp [scanQualified])
  | cons c cs ih =>
    intro acc pkg ty ie h
    unfold scanQualified at h
    by_cases hcond : c = '.' ∧ acc ≠ []
    · rw [if_pos hcond] at h
      cases hmt : matchTail cs with
      | some tyie =>
        obtain ⟨ty', ie'⟩ := tyie
        rw [hmt] at h
        simp only [Option.some.injEq, Prod.mk.injEq] at h
        refine ⟨[], cs, by rw [hcond.1]; rfl, by rw [← h.1]; simp, ?_, by simp, ?_⟩
        · intro hacc
          exact absurd hacc hcond.2
        · rw [hmt, h.2.1, h.2.2]
      | none =>
        rw [hmt] at h
        simp only [] at h
        obtain ⟨pre', tail, hcs, hpkg, _, hpre, hmt'⟩ := ih (c :: acc) pkg ty ie h
        refine ⟨c :: pre', tail, by rw [hcs]; rfl, ?_, fun _ => by simp, ?_, hmt'⟩
        · rw [hpkg, List.reverse_cons, List.append_assoc]
          rfl
        · intro x hx
          rcases List.mem_cons.mp hx with hx | hx
          · rw [hx, hcond.1]; decide
          · exact hpre x hx
    · rw [if_neg hcond] at h
      by_cases hsp : isGoSpace c = true
      · rw [if_pos hsp] at h
        exact absurd h (by simp)
      · rw [if_neg hsp] at h
        obtain ⟨pre', tail, hcs, hpkg, _, hpre, hmt'⟩ := ih (c :: acc) pkg ty ie h
        refine ⟨c :: pre', tail, by rw [hcs]; rfl, ?_, fun _ => by simp, ?_, hmt'⟩
        · rw [hpkg, List.reverse_cons, List.append_assoc]
          rfl
        · intro x hx
          rcases List.mem_cons.mp hx with hx | hx
          · rw [hx]
            cases hb : isGoSpace c with
            | false => rfl
            | true => exact absurd hb hsp
          · exact hpre x hx

theorem rxVarSpecMatch_sound (t name pkg ty ie : Str)
    (h : rxVarSpecMatch t = some (name, pkg, ty, ie)) :
    ∃ sp1 sp2 sp3, t = name ++ (sp1 ++ (pkg ++ '.' :: (ty ++ (sp2 ++ '=' :: (sp3 ++ ie)))))
      ∧ name ≠ [] ∧ (∀ c ∈ name, isIdentChar c = true)
      ∧ sp1 ≠ [] ∧ (∀ c ∈ sp1, (c == ' ') = true)
      ∧ pkg ≠ [] ∧ (∀ c ∈ pkg, isGoSpace c = false)
      ∧ ty ≠ [] ∧ (∀ c ∈ ty, isIdentChar c = true)
      ∧ (∀ c ∈ sp2, (c == ' ') = true) ∧ (∀ c ∈ sp3, (c == ' ') = true)
      ∧ ie ≠ [] ∧ (∀ c ∈ ie, (c == '\n') = false) := by
  unfold rxVarSpecMatch at h
  by_cases hn : t.takeWhile isIdentChar = []
  · rw [if_pos hn] at h
    exact absurd h (by simp)
  · rw [if_neg hn] at h
    by_cases h1 : (t.dropWhile isIdentChar).takeWhile (fun c => c == ' ') = []
    · rw [if_pos h1] at h
      exact absurd h (by simp)
    · rw [if_neg h1] at h
      cases hscan : scanQualified []
          ((t.dropWhile isIdentChar).dropWhile (fun c => c == ' ')) with
      | none => rw [hscan] at h; exact absurd h (by simp)
      | some ptyie =>
        obtain ⟨pkg', ty', ie'⟩ := ptyie
        rw [hscan] at h
        simp only [Option.some.injEq, Prod.mk.injEq] at h
        obtain ⟨hname, hpkg', hty', hie'⟩ := h
        rw [hpkg', hty', hie'] at hscan
        obtain ⟨pre, tail, hr2, hpkg, hprene, hpre, hmt⟩ :=
          scanQualified_sound _ [] pkg ty ie hscan
        have hpkgpre : pkg = pre := by rw [hpkg]; rfl
        subst hpkgpre
        obtain ⟨htyv, htyne, htya, sp2, sp3, h2a, h3a, htail, hiene, hin⟩ :=
          matchTail_sound tail ty ie hmt
        refine ⟨(t.dropWhile isIdentChar).takeWhile (fun c => c == ' '), sp2, sp3, ?_,
          by rw [← hname]; exact hn, ?_, h1, fun c hc => mem_takeWhile_space hc,
          hprene rfl, hpre, htyne, htya, h2a, h3a, hiene, hin⟩
        · calc t = t.takeWhile isIdentChar ++ t.dropWhile isIdentChar :=
              (List.takeWhile_append_dropWhile isIdentChar t).symm
          _ = t.takeWhile isIdentChar ++
              ((t.dropWhile isIdentChar).takeWhile (fun c => c == ' ') ++
                (t.dropWhile isIdentChar).dropWhile (fun c => c == ' ')) := by
              rw [List.takeWhile_append_dropWhile (fun c => c == ' ') (t.dropWhile isIdentChar)]
          _ = name ++ ((t.dropWhile isIdentChar).takeWhile (fun c => c == ' ') ++
                (pkg ++ '.' :: tail)) := by rw [hname, hr2]
          _ = name ++ ((t.dropWhile isIdentChar).takeWhile (fun c => c == ' ') ++
                (pkg ++ '.' :: (ty ++ (sp2 ++ '=' :: (sp3 ++ ie))))) := by rw [← htail]
        · intro c hc
          rw [← hname] at hc
          exact List.mem_takeWhile_imp hc

theorem parseVarSpec_ok_inv (s : Str) (v : VarSpec) (h : ParseVarSpec s = Except.ok v) :
    rxVarSpecMatch (trimSpaceGo s) = some (v.Name, v.PkgPath, v.TypeName, v.InitExpr)
      ∧ v.pkg = default ∧ v.varTypeObj = default := by
  unfold ParseVarSpec at h
  cases hm : rxVarSpecMatch (trimSpaceGo s) with
  | none => rw [hm] at h; exact absurd h (by simp)
  | some q =>
    obtain ⟨n, p, ty, ie⟩ := q
    rw [hm] at h
    simp only [Except.ok.injEq] at h
    rw [← h]
    exact ⟨rfl, rfl, rfl⟩

/-- Claim C8: characterization of ParseVarSpec.  Acceptance: every input
whose trimmed form decomposes as a letter-or-underscore name, one or more
spaces, a nonempty whitespace-free package path, a dot, a letter-only
type name, optional spaces around the equals sign and a nonempty
initializer is accepted with exactly those four captured fields; since
the type name contains no dot, the package/type split is at the last dot
of the pre-equals qualified type, so dotted and slashed package paths are
kept whole.  Soundness: every accepted input trims to such a
decomposition with the captured fields (in particular the returned type
name has no dot and the initializer tolerates surrounding whitespace).
Completeness of rejection: every input not matching the pattern yields
the parse error. -/
theorem parseVarSpec_characterization :
    (∀ (s name sp1 pkg ty sp2 sp3 ie : Str),
      trimSpaceGo s = name ++ (sp1 ++ (pkg ++ '.' :: (ty ++ (sp2 ++ '=' :: (sp3 ++ ie))))) →
      name ≠ [] → (∀ c ∈ name, isIdentChar c = true) →
      sp1 ≠ [] → (∀ c ∈ sp1, (c == ' ') = true) →
      pkg ≠ [] → (∀ c ∈ pkg, isGoSpace c = false ∧ (c == '=') = false) →
      ty ≠ [] → (∀ c ∈ ty, isIdentChar c = true) →
      (∀ c ∈ sp2, (c == ' ') = true) → (∀ c ∈ sp3, (c == ' ') = true) →
      ie ≠ [] → (∀ c cs, ie = c :: cs → (c == ' ') = false) →
      (∀ c ∈ ie, (c == '\n') = false) →
      ParseVarSpec s = Except.ok (VarSpec.mk name pkg ty ie default default))
    ∧ (∀ (s : Str) (v : VarSpec), ParseVarSpec s = Except.ok v →
      ∃ sp1 sp2 sp3,
        trimSpaceGo s = v.Name ++ (sp1 ++ (v.PkgPath ++ '.' ::
          (v.TypeName ++ (sp2 ++ '=' :: (sp3 ++ v.InitExpr)))))
        ∧ v.Name ≠ [] ∧ (∀ c ∈ v.Name, isIdentChar c = true)
        ∧ sp1 ≠ [] ∧ (∀ c ∈ sp1, (c == ' ') = true)
        ∧ v.PkgPath ≠ [] ∧ (∀ c ∈ v.PkgPath, isGoSpace c = false)
        ∧ v.TypeName ≠ [] ∧ (∀ c ∈ v.TypeName, isIdentChar c = true)
        ∧ ('.' ∉ v.TypeName)
        ∧ (∀ c ∈ sp2, (c == ' ') = true) ∧ (∀ c ∈ sp3, (c == ' ') = true)
        ∧ v.InitExpr ≠ [] ∧ (∀ c ∈ v.InitExpr, (c == '\n') = false))
    ∧ (∀ s : Str, rxVarSpecMatch (trimSpaceGo s) = none →
        ParseVarSpec s = Except.error varSpecErrMsg) := by
  refine ⟨?_, ?_, ?_⟩
  · intro s name sp1 pkg ty sp2 sp3 ie hTrim hn hna h1 h1a hp hpa ht hta h2a h3a hi hih hin
    unfold ParseVarSpec
    rw [hTrim, rxVarSpecMatch_accepts name sp1 pkg ty sp2 sp3 ie
      hn hna h1 h1a hp hpa ht hta h2a h3a hi hih hin]
  · intro s v h
    obtain ⟨hm, _, _⟩ := parseVarSpec_ok_inv s v h
    obtain ⟨sp1, sp2, sp3, hdec, hn, hna, h1, h1a, hp, hpa, ht, hta, h2a, h3a, hi, hin⟩ :=
      rxVarSpecMatch_sound (trimSpaceGo s) v.Name v.PkgPath v.TypeName v.InitExpr hm
    refine ⟨sp1, sp2, sp3, hdec, hn, hna, h1, h1a, hp, hpa, ht, hta, ?_, h2a, h3a, hi, hin⟩
    intro hdot
    exact absurd (hta '.' hdot) (by decide)
  · intro s hnone
    unfold ParseVarSpec
    rw [hnone]

/-- Witness for C8: a spec string with doubled separating whitespace is
accepted with the expected four fields. -/
theorem parseVarSpec_characterization_witness :
    trimSpaceGo "ctx  context.Context = context.TODO()".data =
      "ctx".data ++ ("  ".data ++ ("context".data ++ '.' :: ("Context".data ++
        (" ".data ++ '=' :: (" ".data ++ ('c' :: "ontext.TODO()".data))))))
    ∧ ParseVarSpec "ctx  context.Context = context.TODO()".data =
        Except.ok (VarSpec.mk "ctx".data "context".data "Context".data
          ('c' :: "ontext.TODO()".data) default default) := by
  refine ⟨by decide, ?_⟩
  exact parseVarSpec_characterization.1 "ctx  context.Context = context.TODO()".data
    "ctx".data "  ".data "context".data "Context".data " ".data " ".data
    ('c' :: "ontext.TODO()".data)
    (by decide) (by decide) (by decide) (by decide) (by decide) (by decide) (by decide)
    (by decide) (by decide) (by decide) (by decide) (by decide)
    (fun c cs h => by
      have h1 : ('c' : Char) = c := (List.cons.inj h).1
      rw [← h1]
      decide)
    (by decide)

/-- Claim C10: ParseVarSpec rejects inputs whose name or type segment
contains a character outside the letter-or-underscore class.  Every
accepted input has letter-or-underscore-only name and type-name fields,
no decimal digit is in that class, and the two claim inputs with digits
in the name and in the type name are rejected with the parse error even
though they are valid Go identifiers. -/
theorem parseVarSpec_rejects_nonletter_segments :
    (∀ (s : Str) (v : VarSpec), ParseVarSpec s = Except.ok v →
      (∀ c ∈ v.Name, isIdentChar c = true) ∧ (∀ c ∈ v.TypeName, isIdentChar c = true))
    ∧ (∀ c ∈ "0123456789".data, isIdentChar c = false)
    ∧ ParseVarSpec "ctx2 context.Context = context.TODO()".data =
        Except.error varSpecErrMsg
    ∧ ParseVarSpec "v pkg.T1 = f()".data = Except.error varSpecErrMsg := by
  refine ⟨?_, by decide, by decide, by decide⟩
  intro s v h
  obtain ⟨hm, _, _⟩ := parseVarSpec_ok_inv s v h
  obtain ⟨sp1, sp2, sp3, hdec, hn, hna, h1, h1a, hp, hpa, ht, hta, h2a, h3a, hi, hin⟩ :=
    rxVarSpecMatch_sound (trimSpaceGo s) v.Name v.PkgPath v.TypeName v.InitExpr hm
  exact ⟨hna, hta⟩

/-- Witness for C10: the canonical accepted spec string has
letter-or-underscore-only name and type segments. -/
theorem parseVarSpec_rejects_nonletter_segments_witness :
    ParseVarSpec "ctx context.Context = context.TODO()".data =
      Except.ok (VarSpec.mk "ctx".data "context".data "Context".data
        "context.TODO()".data default default)
    ∧ ((∀ c ∈ ("ctx".data : Str), isIdentChar c = true)
      ∧ (∀ c ∈ ("Context".data : Str), isIdentChar c = true)) := by
  refine ⟨by decide, ?_⟩
  exact parseVarSpec_rejects_nonletter_segments.1
    "ctx context.Context = context.TODO()".data
    (VarSpec.mk "ctx".data "context".data "Context".data "context.TODO()".data
      default default)
    (by decide)

end Ctxize
